import Mathlib

set_option maxRecDepth 20000

/-!
Verification of the client-side subgraph reducer

This file embeds the function `reduceCore` of
`src/frontend/src/components/PaperDetail.tsx` (lines 104-115) in Lean 4 and
settles the specification claims about it.

Embedding decisions, each forced by the JavaScript source:

* Node and edge identifiers are modelled as `String`.  The source coerces every
  identifier with `String(...)` before it is used in the degree map, the
  selection set and the induced-edge filter, so the observable behaviour only
  depends on the string form of an id.
* Optional JavaScript fields (`type?`, `nav`, `freq`, `e.id`) are modelled as
  `Option`; a record constructed without a field (the output nodes have no
  `freq` property) carries `none` there, matching the `undefined` read.
* `x || d` on a number is `d` when `x` is `undefined` or `0` (both falsy);
  on a string it is `d` when `x` is `undefined` or `""`.  `jsOrNat` and
  `jsOrStr` implement exactly this.
* `Array.prototype.sort` with the comparator `(b.d - a.d) || (b.f - a.f)` is a
  stable sort for the total preorder "degree descending, then frequency
  descending".  A stable sort for a consistent comparator has a unique result,
  so it is embedded by `List.insertionSort` with that preorder, which is stable
  (ties keep input order) and sorted.
-/

/-- A navigation anchor: document id plus global character offsets.  The
reducer copies `nav` opaquely, so any concrete record type works; this one
follows the description of an anchor in the specification. -/
structure Nav where
  docId : String
  charStart : Nat
  charEnd : Nat
deriving DecidableEq, Repr

/-- A node of the core graph as read by `reduceCore` (line 105): the reducer
projects its input onto exactly the fields `id`, `label`, `type`, `nav`,
`freq`. -/
structure CoreNode where
  id : String
  label : String
  type : Option String
  nav : Option Nav
  freq : Option Nat
deriving DecidableEq, Repr

/-- An edge of the core graph: optional id, source and target ids. -/
structure CoreEdge where
  id : Option String
  source : String
  target : String
deriving DecidableEq, Repr

/-- The input graph.  `nodes` and `edges` are optional because the source
guards both with `core.nodes || []` and `core.edges || []` (lines 105-106). -/
structure Graph where
  nodes : Option (List CoreNode)
  edges : Option (List CoreEdge)
deriving DecidableEq, Repr

/-- An edge of the returned view: the id has been defaulted (line 113). -/
structure ViewEdge where
  id : String
  source : String
  target : String
deriving DecidableEq, Repr

/-- The returned view (`GraphDataCore` in the source). -/
structure GraphDataCore where
  nodes : List CoreNode
  edges : List ViewEdge
deriving DecidableEq, Repr

/-- JavaScript `x || d` for an optional number: `undefined` and `0` are
falsy. -/
def jsOrNat (x : Option Nat) (d : Nat) : Nat :=
  match x with
  | none => d
  | some k => if k = 0 then d else k

/-- JavaScript `x || d` for an optional string: `undefined` and `""` are
falsy. -/
def jsOrStr (x : Option String) (d : String) : String :=
  match x with
  | none => d
  | some s => if s = "" then d else s

/-- The degree map of line 107: every edge contributes once to the count of
its source id and once to the count of its target id (a self-loop contributes
twice to its endpoint). -/
def degOf (edges : List CoreEdge) (s : String) : Nat :=
  edges.foldl
    (fun acc e =>
      (acc + (if e.source = s then 1 else 0)) + (if e.target = s then 1 else 0))
    0

/-- Line 105: the projection `n => ({id, label, type, nav, freq})`. -/
def copyNode (n : CoreNode) : CoreNode :=
  { id := n.id, label := n.label, type := n.type, nav := n.nav, freq := n.freq }

/-- A scored candidate (line 108): the node together with its degree `d` and
its frequency `f = n.freq || 1`. -/
structure Scored where
  n : CoreNode
  d : Nat
  f : Nat
deriving DecidableEq, Repr

/-- Line 108: `{ n, d: deg[String(n.id)]||0, f: n.freq||1 }`.  A missing entry
of the degree dictionary reads as `undefined`, so `deg[...]||0` is exactly
`degOf`. -/
def scoreNode (edges : List CoreEdge) (n : CoreNode) : Scored :=
  { n := n, d := degOf edges n.id, f := jsOrNat n.freq 1 }

/-- The order realised by the comparator of line 109,
`(b.d - a.d) || (b.f - a.f)`: `a` may come before `b` iff the comparator is
nonpositive, i.e. degree descending then frequency descending. -/
def jsLe (a b : Scored) : Prop :=
  b.d < a.d ∨ (a.d = b.d ∧ b.f ≤ a.f)

instance : DecidableRel jsLe := fun _ _ =>
  inferInstanceAs (Decidable (_ ∨ _))

instance : IsTotal Scored jsLe where
  total a b := by
    unfold jsLe
    rcases Nat.lt_trichotomy a.d b.d with h | h | h
    · exact Or.inr (Or.inl h)
    · rcases Nat.le_total b.f a.f with hf | hf
      · exact Or.inl (Or.inr ⟨h, hf⟩)
      · exact Or.inr (Or.inr ⟨h.symm, hf⟩)
    · exact Or.inl (Or.inl h)

instance : IsTrans Scored jsLe where
  trans a b c hab hbc := by
    unfold jsLe at *
    rcases hab with h1 | ⟨h1, hf1⟩
    · rcases hbc with h2 | ⟨h2, _⟩
      · exact Or.inl (h2.trans h1)
      · exact Or.inl (h2 ▸ h1)
    · rcases hbc with h2 | ⟨h2, hf2⟩
      · exact Or.inl (h1 ▸ h2)
      · exact Or.inr ⟨h1.trans h2, hf2.trans hf1⟩

/-- Lines 105-108: the scored candidate list, in input order. -/
def scoredOf (core : Graph) : List Scored :=
  ((core.nodes.getD []).map copyNode).map (scoreNode (core.edges.getD []))

/-- Line 109: the stable sort of the candidates by the comparator. -/
def rankedOf (core : Graph) : List Scored :=
  List.insertionSort jsLe (scoredOf core)

/-- Line 112: the projection `s => ({id, label, type, nav})` applied to a
selected candidate.  The constructed object has no `freq` property. -/
def stripNode (s : Scored) : CoreNode :=
  { id := s.n.id, label := s.n.label, type := s.n.type, nav := s.n.nav,
    freq := none }

/-- Line 111: the selection set `sel` (as the list of selected ids; only
membership is ever used). -/
def selIdsOf (core : Graph) (limit : Nat) : List String :=
  ((rankedOf core).take limit).map (fun s => s.n.id)

/-- JavaScript `Array.prototype.map` with the element index, as used on
line 113. -/
def mapWithIdx (f : Nat → CoreEdge → ViewEdge) : Nat → List CoreEdge → List ViewEdge
  | _, [] => []
  | i, e :: es => f i e :: mapWithIdx f (i + 1) es

/-- Line 113: rebuild a kept edge, defaulting a falsy id to `e` followed by
its index in the filtered list. -/
def rebuildEdge (i : Nat) (e : CoreEdge) : ViewEdge :=
  { id := jsOrStr e.id ("e" ++ toString i), source := e.source, target := e.target }

/-- The function `reduceCore` (lines 104-115 of `PaperDetail.tsx`). -/
def reduceCore (core : Graph) (limit : Nat) : GraphDataCore :=
  let edges := core.edges.getD []
  let sel := selIdsOf core limit
  { nodes := ((rankedOf core).take limit).map stripNode
  , edges := mapWithIdx rebuildEdge 0
      (edges.filter (fun e => sel.contains e.source && sel.contains e.target)) }

/-!
Connectivity of a view.

`reduceCore` performs no connected-component analysis, so to settle the
connectivity claim we need an independent notion of "the view forms a single
connected component".  `viewConnected` computes, by a fuel-bounded breadth
expansion, the set of ids reachable in the view from its first node, and checks
that every node id is reached.  In a view all edge endpoints are node ids, so
`nodes.length` rounds of expansion reach everything reachable. -/

/-- One expansion round: add to `seen` every id joined by a view edge to an id
already in `seen`. -/
def stepReach (es : List ViewEdge) (seen : List String) : List String :=
  es.foldl
    (fun acc e =>
      let acc2 :=
        if acc.contains e.source && !(acc.contains e.target) then acc ++ [e.target] else acc
      if acc2.contains e.target && !(acc2.contains e.source) then acc2 ++ [e.source] else acc2)
    seen

/-- Iterated expansion: `fuel` rounds starting from `seen`. -/
def reachN (es : List ViewEdge) : Nat → List String → List String
  | 0, seen => seen
  | n + 1, seen => reachN es n (stepReach es seen)

/-- The view forms a single connected component: every node id is reachable
from the first node along view edges (an empty view counts as connected). -/
def viewConnected (g : GraphDataCore) : Bool :=
  match g.nodes with
  | [] => true
  | n :: _ => g.nodes.all (fun m => (reachN g.edges g.nodes.length [n.id]).contains m.id)

/-!
Spec-level rankings.

`specSelect` follows the wording of the specification for the ranking key
(degree descending, frequency descending, node id ascending) and is compared
against the code.  `specStableRanking` is the amended key: the tertiary
tie-break is the position of the candidate in the input list, i.e. a stable
two-key sort. -/

/-- Lexicographic character order on strings, written out so that it reduces
in the kernel (`String.decidableLE` does not). -/
def strLeB : List Char → List Char → Bool
  | [], _ => true
  | _ :: _, [] => false
  | a :: as, b :: bs =>
      if a.toNat < b.toNat then true
      else if b.toNat < a.toNat then false
      else strLeB as bs

/-- Ascending order on node ids. -/
def idLe (a b : String) : Prop := strLeB a.data b.data = true

instance : DecidableRel idLe := fun _ _ =>
  inferInstanceAs (Decidable (_ = _))

/-- The composite ranking key claimed by the specification: primary degree
descending, secondary frequency descending, tertiary node id ascending. -/
def specLe (a b : Scored) : Prop :=
  b.d < a.d ∨ (a.d = b.d ∧ (b.f < a.f ∨ (a.f = b.f ∧ idLe a.n.id b.n.id)))

instance : DecidableRel specLe := fun _ _ =>
  inferInstanceAs (Decidable (_ ∨ _))

/-- The selection claimed by the specification: the first `B` entries of the
candidate list sorted by `specLe`, projected to view nodes. -/
def specSelect (core : Graph) (B : Nat) : List CoreNode :=
  ((List.insertionSort specLe (scoredOf core)).take B).map stripNode

/-- The amended composite key on position-tagged candidates: degree descending,
frequency descending, original position ascending. -/
def idxLe (a b : Nat × Scored) : Prop :=
  b.2.d < a.2.d ∨ (a.2.d = b.2.d ∧ (b.2.f < a.2.f ∨ (a.2.f = b.2.f ∧ a.1 ≤ b.1)))

instance : DecidableRel idxLe := fun _ _ =>
  inferInstanceAs (Decidable (_ ∨ _))

/-- The amended ranking: candidates sorted by degree descending, frequency
descending, and input position ascending as the tie-break. -/
def specStableRanking (core : Graph) : List Scored :=
  (List.insertionSort idxLe (List.enumFrom 0 (scoredOf core))).map Prod.snd

/-!
Heap model for the frame claim.

Every array operation `reduceCore` performs (`map`, `forEach`, `slice`,
`filter`) returns a fresh array and leaves its receiver unchanged; the one
in-place operation, `sort`, is applied to `scored`, an array freshly created by
`map` on the line before.  `reduceCoreSteps` threads the input through those
steps and returns, next to the view, the graph as it stands after the call. -/

/-- Step model of `reduceCore`: the first component is the input graph as left
behind by the call, the second component the returned view. -/
def reduceCoreSteps (core : Graph) (limit : Nat) : Graph × GraphDataCore :=
  let nodesArr := (core.nodes.getD []).map copyNode
  let edgesArr := core.edges.getD []
  let scoredFresh := nodesArr.map (scoreNode edgesArr)
  let scoredSorted := List.insertionSort jsLe scoredFresh
  let sel := (scoredSorted.take limit).map (fun s => s.n.id)
  let outNodes := (scoredSorted.take limit).map stripNode
  let outEdges := mapWithIdx rebuildEdge 0
    (edgesArr.filter (fun e => sel.contains e.source && sel.contains e.target))
  ({ nodes := core.nodes, edges := core.edges },
   { nodes := outNodes, edges := outEdges })

/-!
Concrete inputs used by counterexamples and witnesses. -/

/-- A node with the given id, no optional data. -/
def mkN (i : String) : CoreNode :=
  { id := i, label := i, type := none, nav := none, freq := none }

/-- An edge with no id field. -/
def mkE (s t : String) : CoreEdge :=
  { id := none, source := s, target := t }

/-- Two disjoint edges on four nodes: the induced view at budget 4 keeps both
edges and is disconnected. -/
def pairGraph : Graph :=
  { nodes := some [mkN "a", mkN "b", mkN "c", mkN "d"],
    edges := some [mkE "a" "b", mkE "c" "d"] }

/-- Two disjoint triangles on six nodes. -/
def twoTriangles : Graph :=
  { nodes := some [mkN "p", mkN "q", mkN "r", mkN "u", mkN "v", mkN "w"],
    edges := some [mkE "p" "q", mkE "q" "r", mkE "r" "p",
                   mkE "u" "v", mkE "v" "w", mkE "w" "u"] }

/-- Two nodes with equal degree and frequency, listed in descending id order:
a stable sort keeps them as given, an id-ascending tie-break would swap
them. -/
def tieGraph : Graph :=
  { nodes := some [mkN "2", mkN "1"], edges := none }

/-- A single node carrying a `freq` value. -/
def freqGraph : Graph :=
  { nodes := some [{ id := "a", label := "A", type := none, nav := none,
                     freq := some 5 }],
    edges := none }

/-- A node carrying a navigation anchor, plus a neighbour. -/
def navGraph : Graph :=
  { nodes := some [{ id := "a", label := "A", type := some "GENE",
                     nav := some { docId := "doc1", charStart := 3, charEnd := 9 },
                     freq := some 2 },
                   mkN "b"],
    edges := some [mkE "a" "b"] }

/-- A three-node path used by the induced-edge witness. -/
def wGraph : Graph :=
  { nodes := some [mkN "a", mkN "b", mkN "c"],
    edges := some [mkE "a" "b", mkE "b" "c"] }

/-- Ten distinct nodes where `x` has degree 6 and every other node has degree
at most 1. -/
def hubGraph : Graph :=
  { nodes := some [mkN "x", mkN "a", mkN "b", mkN "c", mkN "d", mkN "e",
                   mkN "f", mkN "g", mkN "h", mkN "i"],
    edges := some [mkE "x" "a", mkE "x" "b", mkE "x" "c",
                   mkE "x" "d", mkE "x" "e", mkE "x" "f"] }

/-- A wholly absent input. -/
def absentGraph : Graph := { nodes := none, edges := none }

/-!
Helper lemmas shared by the claim theorems. -/

/-- Projection of `reduceCore`: the returned node list. -/
@[simp] theorem reduceCore_nodes (core : Graph) (limit : Nat) :
    (reduceCore core limit).nodes = ((rankedOf core).take limit).map stripNode := rfl

/-- Projection of `reduceCore`: the returned edge list. -/
@[simp] theorem reduceCore_edges (core : Graph) (limit : Nat) :
    (reduceCore core limit).edges =
      mapWithIdx rebuildEdge 0
        ((core.edges.getD []).filter (fun e =>
          (selIdsOf core limit).contains e.source &&
          (selIdsOf core limit).contains e.target)) := rfl

/-- Structure eta: the line-105 projection is the identity on the modelled
fields. -/
@[simp] theorem copyNode_eq (n : CoreNode) : copyNode n = n := rfl

/-- The candidate list is the input node list scored in order. -/
theorem scoredOf_eq (core : Graph) :
    scoredOf core = (core.nodes.getD []).map (scoreNode (core.edges.getD [])) := by
  unfold scoredOf
  rw [List.map_congr_left (fun a _ => copyNode_eq a), List.map_id']

/-- Members of `mapWithIdx` come from members of the list. -/
theorem mem_mapWithIdx {f : Nat → CoreEdge → ViewEdge} :
    ∀ {k : Nat} {l : List CoreEdge} {x : ViewEdge},
      x ∈ mapWithIdx f k l → ∃ i e, e ∈ l ∧ x = f i e
  | _, [], _, h => absurd h (List.not_mem_nil _)
  | k, e :: t, x, h => by
      rcases List.mem_cons.mp h with h | h
      · exact ⟨k, e, List.mem_cons_self _ _, h⟩
      · obtain ⟨i, e2, he2, hx⟩ := mem_mapWithIdx h
        exact ⟨i, e2, List.mem_cons_of_mem _ he2, hx⟩

/-- Projecting endpoints commutes with the index-carrying rebuild of
line 113. -/
theorem map_endpoints_mapWithIdx :
    ∀ (k : Nat) (l : List CoreEdge),
      (mapWithIdx rebuildEdge k l).map (fun e => (e.source, e.target)) =
        l.map (fun e => (e.source, e.target))
  | _, [] => rfl
  | k, e :: t => by
      simp [mapWithIdx, rebuildEdge, map_endpoints_mapWithIdx (k + 1) t]

/-- With the left position tag below every tag in the list, the tagged
three-part key agrees with the two-part comparator key. -/
theorem idxLe_iff_jsLe {k j : Nat} {x b : Scored} (h : k ≤ j) :
    idxLe (k, x) (j, b) ↔ jsLe x b := by
  unfold idxLe jsLe
  constructor
  · rintro (hd | ⟨hd, hf | ⟨hf, _⟩⟩)
    · exact Or.inl hd
    · exact Or.inr ⟨hd, le_of_lt hf⟩
    · exact Or.inr ⟨hd, le_of_eq hf.symm⟩
  · rintro (hd | ⟨hd, hf⟩)
    · exact Or.inl hd
    · rcases lt_or_eq_of_le hf with hf2 | hf2
      · exact Or.inr ⟨hd, Or.inl hf2⟩
      · exact Or.inr ⟨hd, Or.inr ⟨hf2.symm, h⟩⟩

/-- Position tags in `enumFrom n l` are at least `n`. -/
theorem fst_le_of_mem_enumFrom :
    ∀ (l : List Scored) (n : Nat) (p : Nat × Scored), p ∈ List.enumFrom n l → n ≤ p.1
  | [], _, _, h => absurd h (List.not_mem_nil _)
  | x :: t, n, p, h => by
      rw [List.enumFrom] at h
      rcases List.mem_cons.mp h with h | h
      · subst h; exact le_refl n
      · exact le_of_lt (Nat.lt_of_lt_of_le (Nat.lt_succ_self n)
          (fst_le_of_mem_enumFrom t (n + 1) p h))

/-- Inserting a candidate tagged below every tag in the list: dropping the
tags turns the three-part insertion into the two-part insertion. -/
theorem map_snd_orderedInsert (k : Nat) (x : Scored) :
    ∀ (l : List (Nat × Scored)), (∀ p ∈ l, k < p.1) →
      (List.orderedInsert idxLe (k, x) l).map Prod.snd =
        List.orderedInsert jsLe x (l.map Prod.snd)
  | [], _ => rfl
  | (j, b) :: t, h => by
      have hkj : k ≤ j := le_of_lt (h (j, b) (List.mem_cons_self _ _))
      by_cases hc : jsLe x b
      · rw [List.orderedInsert, if_pos ((idxLe_iff_jsLe hkj).mpr hc)]
        simp only [List.map_cons]
        rw [List.orderedInsert, if_pos hc]
      · rw [List.orderedInsert, if_neg (fun hcontra => hc ((idxLe_iff_jsLe hkj).mp hcontra))]
        simp only [List.map_cons]
        rw [List.orderedInsert, if_neg hc]
        rw [map_snd_orderedInsert k x t (fun p hp => h p (List.mem_cons_of_mem _ hp))]

/-- Stability: the stable two-key sort of line 109 equals the strict three-key
sort that breaks ties by input position. -/
theorem map_snd_insertionSort_enumFrom :
    ∀ (xs : List Scored) (k : Nat),
      (List.insertionSort idxLe (List.enumFrom k xs)).map Prod.snd =
        List.insertionSort jsLe xs
  | [], _ => rfl
  | x :: t, k => by
      rw [List.enumFrom, List.insertionSort, List.insertionSort]
      have hidx : ∀ p ∈ List.insertionSort idxLe (List.enumFrom (k + 1) t), k < p.1 := by
        intro p hp
        have hp2 : p ∈ List.enumFrom (k + 1) t :=
          (List.perm_insertionSort idxLe (List.enumFrom (k + 1) t)).mem_iff.mp hp
        exact Nat.lt_of_succ_le (fst_le_of_mem_enumFrom t (k + 1) p hp2)
      rw [map_snd_orderedInsert k x _ hidx, map_snd_insertionSort_enumFrom t (k + 1)]

/-- Every view node is the stripped copy of a scored input node. -/
theorem view_node_src {core : Graph} {B : Nat} {v : CoreNode}
    (hv : v ∈ (reduceCore core B).nodes) :
    ∃ n ∈ core.nodes.getD [],
      v = stripNode (scoreNode (core.edges.getD []) n) := by
  rw [reduceCore_nodes] at hv
  obtain ⟨s, hs, hvs⟩ := List.mem_map.mp hv
  have hs2 : s ∈ rankedOf core := List.mem_of_mem_take hs
  have hs3 : s ∈ scoredOf core := (List.mem_insertionSort jsLe).mp hs2
  rw [scoredOf_eq] at hs3
  obtain ⟨n, hn, hsn⟩ := List.mem_map.mp hs3
  exact ⟨n, hn, by rw [← hvs, ← hsn]⟩

/-- The ids of the view nodes are exactly the selection set. -/
theorem view_node_ids (core : Graph) (B : Nat) :
    (reduceCore core B).nodes.map (fun n => n.id) = selIdsOf core B := by
  rw [reduceCore_nodes, selIdsOf, List.map_map]
  rfl

/-!
The claims. -/

/-- C1, counterexample: on `pairGraph` with budget 4, the view returned by
`reduceCore` has edges yet is not a single connected component, refuting the
claim that the reducer keeps only the largest connected component. -/
theorem C1_counterexample :
    (reduceCore pairGraph 4).edges ≠ [] ∧
      viewConnected (reduceCore pairGraph 4) = false := ⟨by decide, by decide⟩

/-- C1, amended: `reduceCore` performs no connected-component computation at
all; a returned view with at least one edge can consist of several connected
components (no largest-component reduction is applied). -/
theorem C1_view_can_be_disconnected :
    ∃ (core : Graph) (B : Nat),
      (reduceCore core B).edges ≠ [] ∧
        viewConnected (reduceCore core B) = false :=
  ⟨twoTriangles, 6, by decide, by decide⟩

/-- C2, counterexample: on `tieGraph` (two nodes with equal degree and
frequency listed in descending id order) with budget 2, the node list returned
by `reduceCore` differs from the first-2 prefix of the candidates sorted by
the claimed three-part key with node id ascending as tie-break. -/
theorem C2_counterexample :
    (reduceCore tieGraph 2).nodes ≠ specSelect tieGraph 2 := by decide

/-- C2, amended: the comparator has no id tie-break; the selected node list
equals the first `B` entries of the candidates sorted by the composite key
degree descending, frequency descending, and original input position ascending
(the sort is stable, ties keep input order). -/
theorem C2_selection_is_stable_two_key_sort (core : Graph) (B : Nat) :
    (reduceCore core B).nodes = ((specStableRanking core).take B).map stripNode := by
  rw [reduceCore_nodes, specStableRanking, map_snd_insertionSort_enumFrom]
  rfl

/-- C3: for every input graph and every budget `B`, the view returned by
`reduceCore` contains at most `B` nodes. -/
theorem C3_budget_invariant (core : Graph) (B : Nat) :
    (reduceCore core B).nodes.length ≤ B := by
  rw [reduceCore_nodes, List.length_map]
  exact List.length_take_le _ _

/-- C4: every edge of the view has both endpoints among the selected view
nodes, and the view edge set is exactly (up to the id defaulting of line 113)
the input edges whose two endpoints are both selected. -/
theorem C4_induced_edges (core : Graph) (B : Nat) :
    (∀ e ∈ (reduceCore core B).edges,
        (∃ n ∈ (reduceCore core B).nodes, n.id = e.source) ∧
        (∃ n ∈ (reduceCore core B).nodes, n.id = e.target)) ∧
      (reduceCore core B).edges.map (fun e => (e.source, e.target)) =
        ((core.edges.getD []).filter (fun e =>
            ((reduceCore core B).nodes.map (fun n => n.id)).contains e.source &&
            ((reduceCore core B).nodes.map (fun n => n.id)).contains e.target)).map
          (fun e => (e.source, e.target)) := by
  constructor
  · intro e he
    rw [reduceCore_edges] at he
    obtain ⟨i, e0, he0, hee⟩ := mem_mapWithIdx he
    obtain ⟨-, hpred⟩ := List.mem_filter.mp he0
    rw [Bool.and_eq_true] at hpred
    obtain ⟨hps, hpt⟩ := hpred
    have hsrc : e0.source ∈ selIdsOf core B := by simpa using hps
    have htgt : e0.target ∈ selIdsOf core B := by simpa using hpt
    rw [selIdsOf] at hsrc htgt
    obtain ⟨s, hs, hsid⟩ := List.mem_map.mp hsrc
    obtain ⟨t, ht, htid⟩ := List.mem_map.mp htgt
    constructor
    · refine ⟨stripNode s, ?_, ?_⟩
      · rw [reduceCore_nodes]; exact List.mem_map_of_mem _ hs
      · rw [hee]; simpa [rebuildEdge, stripNode] using hsid
    · refine ⟨stripNode t, ?_, ?_⟩
      · rw [reduceCore_nodes]; exact List.mem_map_of_mem _ ht
      · rw [hee]; simpa [rebuildEdge, stripNode] using htid
  · rw [view_node_ids, reduceCore_edges, map_endpoints_mapWithIdx]

/-- C4, witness: the induced-edge theorem applied to the concrete view edge
between `a` and `b` of `wGraph` at budget 3. -/
theorem C4_induced_edges_witness :
    (∃ n ∈ (reduceCore wGraph 3).nodes, n.id = "a") ∧
      ∃ n ∈ (reduceCore wGraph 3).nodes, n.id = "b" :=
  (C4_induced_edges wGraph 3).1 { id := "e0", source := "a", target := "b" }
    (by decide)

/-- C5: the reducer is deterministic; two runs on equal graphs with equal
budgets return the same node list and the same edge list, in the same order.
In the embedding this is purity of `reduceCore`; on the JavaScript side it
holds because the comparator is consistent and `Array.prototype.sort` is
stable, hence the sorted order is uniquely determined. -/
theorem C5_deterministic (core1 core2 : Graph) (B1 B2 : Nat)
    (hc : core1 = core2) (hB : B1 = B2) :
    (reduceCore core1 B1).nodes = (reduceCore core2 B2).nodes ∧
      (reduceCore core1 B1).edges = (reduceCore core2 B2).edges := by
  subst hc; subst hB; exact ⟨rfl, rfl⟩

/-- C5, witness: determinism instantiated at `tieGraph` with budget 2. -/
theorem C5_deterministic_witness :
    tieGraph = tieGraph ∧
      ((reduceCore tieGraph 2).nodes = (reduceCore tieGraph 2).nodes ∧
        (reduceCore tieGraph 2).edges = (reduceCore tieGraph 2).edges) :=
  ⟨rfl, C5_deterministic tieGraph tieGraph 2 2 rfl rfl⟩

/-- C6: every node retained in a view carries its `nav` anchor unchanged from
a node of the input graph with the same id. -/
theorem C6_nav_unchanged (core : Graph) (B : Nat) (v : CoreNode)
    (hv : v ∈ (reduceCore core B).nodes) :
    ∃ n ∈ core.nodes.getD [], n.id = v.id ∧ v.nav = n.nav := by
  obtain ⟨n, hn, hvn⟩ := view_node_src hv
  exact ⟨n, hn, by rw [hvn]; simp [stripNode, scoreNode]⟩

/-- C6, witness: the anchor of node `a` of `navGraph` is carried unchanged
into the budget-2 view. -/
theorem C6_nav_unchanged_witness :
    ∃ n ∈ navGraph.nodes.getD [],
      n.id = "a" ∧
        (some { docId := "doc1", charStart := 3, charEnd := 9 } : Option Nav) = n.nav :=
  C6_nav_unchanged navGraph 2
    { id := "a", label := "A", type := some "GENE",
      nav := some { docId := "doc1", charStart := 3, charEnd := 9 }, freq := none }
    (by decide)

/-- C7, counterexample: in the budget-1 view of `freqGraph` there is a node
whose `freq` differs from the `freq` of the input node with the same id (the
input has `freq = some 5`, the view node has none), refuting the claim that
view node records retain the `freq` field. -/
theorem C7_counterexample :
    ∃ v ∈ (reduceCore freqGraph 1).nodes,
      ∀ n ∈ freqGraph.nodes.getD [], n.id = v.id → v.freq ≠ n.freq := by decide

/-- C7, amended: view node records retain `id`, `label`, `type` and `nav` from
the corresponding core node, but the `freq` field is dropped (absent) in every
view produced by `reduceCore`. -/
theorem C7_view_schema_drops_freq (core : Graph) (B : Nat) (v : CoreNode)
    (hv : v ∈ (reduceCore core B).nodes) :
    v.freq = none ∧
      ∃ n ∈ core.nodes.getD [],
        n.id = v.id ∧ n.label = v.label ∧ n.type = v.type ∧ n.nav = v.nav := by
  obtain ⟨n, hn, hvn⟩ := view_node_src hv
  subst hvn
  exact ⟨rfl, n, hn, by simp [stripNode, scoreNode]⟩

/-- C7, witness: the amended schema theorem at the budget-1 view of
`freqGraph`. -/
theorem C7_view_schema_drops_freq_witness :
    (none : Option Nat) = none ∧
      ∃ n ∈ freqGraph.nodes.getD [],
        n.id = "a" ∧ n.label = "A" ∧ n.type = (none : Option String) ∧
          n.nav = (none : Option Nav) :=
  C7_view_schema_drops_freq freqGraph 1
    { id := "a", label := "A", type := none, nav := none, freq := none } (by decide)

/-- C8: on a degenerate input (node and edge lists empty or absent) the
reducer returns the empty view for every budget, rather than failing. -/
theorem C8_degenerate_empty_view (core : Graph) (B : Nat)
    (hn : core.nodes = none ∨ core.nodes = some [])
    (he : core.edges = none ∨ core.edges = some []) :
    reduceCore core B = { nodes := [], edges := [] } := by
  have hn2 : core.nodes.getD [] = [] := by rcases hn with h | h <;> rw [h] <;> rfl
  have he2 : core.edges.getD [] = [] := by rcases he with h | h <;> rw [h] <;> rfl
  have hranked : rankedOf core = [] := by
    rw [rankedOf, scoredOf_eq, hn2]; rfl
  have h1 : (reduceCore core B).nodes = [] := by
    rw [reduceCore_nodes, hranked, List.take_nil]; rfl
  have h2 : (reduceCore core B).edges = [] := by
    rw [reduceCore_edges, he2]; rfl
  have heta : reduceCore core B =
      ⟨(reduceCore core B).nodes, (reduceCore core B).edges⟩ := rfl
  rw [heta, h1, h2]

/-- C8, witness: the wholly absent input reduces to the empty view at
budget 7. -/
theorem C8_degenerate_empty_view_witness :
    reduceCore absentGraph 7 = { nodes := [], edges := [] } :=
  C8_degenerate_empty_view absentGraph 7 (Or.inl rfl) (Or.inl rfl)

/-- C9: in a simple 10-node graph where node `X` has degree 6 and every other
node has degree at most 3, reducing with budget 5 always keeps a view node
with the id of `X`. -/
theorem C9_high_degree_hub_selected (core : Graph) (X : CoreNode)
    (_hlen : (core.nodes.getD []).length = 10)
    (_hids : (core.nodes.getD []).Pairwise (fun a b => a.id ≠ b.id))
    (hX : X ∈ core.nodes.getD [])
    (hdeg : degOf (core.edges.getD []) X.id = 6)
    (hoth : ∀ n ∈ core.nodes.getD [], n.id ≠ X.id →
      degOf (core.edges.getD []) n.id ≤ 3) :
    ∃ v ∈ (reduceCore core 5).nodes, v.id = X.id := by
  have hscored : scoredOf core =
      (core.nodes.getD []).map (scoreNode (core.edges.getD [])) := scoredOf_eq core
  have hmem : scoreNode (core.edges.getD []) X ∈ rankedOf core := by
    rw [rankedOf, List.mem_insertionSort, hscored]
    exact List.mem_map_of_mem _ hX
  obtain ⟨s0, rest, hcons⟩ : ∃ s0 rest, rankedOf core = s0 :: rest := by
    cases h : rankedOf core with
    | nil => rw [h] at hmem; exact absurd hmem (List.not_mem_nil _)
    | cons a l => exact ⟨a, l, rfl⟩
  have hsorted : List.Sorted jsLe (rankedOf core) :=
    List.sorted_insertionSort jsLe (scoredOf core)
  rw [hcons] at hsorted hmem
  have hs0id : s0.n.id = X.id := by
    rcases List.mem_cons.mp hmem with he | hrest
    · rw [← he]; simp [scoreNode]
    · have hle : jsLe s0 (scoreNode (core.edges.getD []) X) :=
        List.rel_of_sorted_cons hsorted _ hrest
      have hd6 : 6 ≤ s0.d := by
        rcases hle with h | ⟨h, _⟩
        · have hXd : (scoreNode (core.edges.getD []) X).d = 6 := by
            simp [scoreNode, hdeg]
          omega
        · have hXd : (scoreNode (core.edges.getD []) X).d = 6 := by
            simp [scoreNode, hdeg]
          omega
      have hs0mem : s0 ∈ scoredOf core := by
        have h1 : s0 ∈ rankedOf core := by rw [hcons]; exact List.mem_cons_self _ _
        exact (List.mem_insertionSort jsLe).mp h1
      rw [hscored] at hs0mem
      obtain ⟨n, hn, hsn⟩ := List.mem_map.mp hs0mem
      by_cases hnx : n.id = X.id
      · rw [← hsn]; simpa [scoreNode] using hnx
      · exfalso
        have h3 := hoth n hn hnx
        rw [← hsn] at hd6
        simp only [scoreNode] at hd6
        omega
  refine ⟨stripNode s0, ?_, ?_⟩
  · rw [reduceCore_nodes, hcons]
    exact List.mem_map_of_mem _ (by simp [List.take])
  · simpa [stripNode] using hs0id

/-- C9, witness: the hub theorem at the concrete ten-node `hubGraph` whose
node `x` has degree 6 while every other node has degree at most 1. -/
theorem C9_high_degree_hub_selected_witness :
    ((hubGraph.nodes.getD []).length = 10 ∧
      (hubGraph.nodes.getD []).Pairwise (fun a b => a.id ≠ b.id) ∧
      mkN "x" ∈ hubGraph.nodes.getD [] ∧
      degOf (hubGraph.edges.getD []) (mkN "x").id = 6 ∧
      (∀ n ∈ hubGraph.nodes.getD [], n.id ≠ (mkN "x").id →
        degOf (hubGraph.edges.getD []) n.id ≤ 3)) ∧
    ∃ v ∈ (reduceCore hubGraph 5).nodes, v.id = (mkN "x").id :=
  ⟨⟨by decide, by decide, by decide, by decide, by decide⟩,
   C9_high_degree_hub_selected hubGraph (mkN "x")
     (by decide) (by decide) (by decide) (by decide) (by decide)⟩

/-- C10: `reduceCore` does not mutate its input.  In the step model that
threads the input arrays through each array operation of the source, the
graph left behind by the call equals the input, and the view built from the
freshly constructed records equals the result of `reduceCore`. -/
theorem C10_input_not_mutated (core : Graph) (B : Nat) :
    (reduceCoreSteps core B).1 = core ∧
      (reduceCoreSteps core B).2 = reduceCore core B :=
  ⟨rfl, rfl⟩
